import Mathlib

/-!
Shallow embedding of `src/source/signature_database.py` (class
`SignatureCollection`): word extraction and quantization of image
signatures, record construction, candidate retrieval over a document
store, and normalized-distance ranking.

Python integers and signature entries are modelled by `Int`, numpy
float computations in `linspace` by exact rational/natural arithmetic
(`(i * L) / N` in `Nat` is the floor of the real value `i * L / N`),
and `numpy.linalg.norm` by the Euclidean norm on `EuclideanSpace ℝ`.
-/

namespace SignatureDB

/-- Start positions of the words, from
`np.linspace(0, array.shape[0], N, endpoint=False).astype('int')`:
the `N` points `i * L / N` for `i = 0, …, N-1`, truncated to integers
(they are non-negative, so truncation is floor). -/
def word_positions (L N : Nat) : List Nat :=
  (List.range N).map (fun i => (i * L) / N)

/-- One word of `get_words`: `words[i] = array[pos:pos+k]` when
`pos + k <= array.shape[0]`, else `temp = array[pos:].copy(); temp.resize(k)`
which right-pads `array[pos:]` with zeros out to length `k`. -/
def extractWord (array : List Int) (pos k : Nat) : List Int :=
  if pos + k ≤ array.length then
    (array.drop pos).take k
  else
    array.drop pos ++ List.replicate (k - (array.length - pos)) 0

/-- `SignatureCollection.get_words(array, k, N)`: computes the start
positions, raises `ValueError` when `k > len(array)` or when the number
of positions exceeds `len(array)`, and otherwise fills an `N × k` array
with the (possibly zero-padded) words. -/
def get_words (array : List Int) (k N : Nat) : Except String (List (List Int)) :=
  let positions := word_positions array.length N
  if k > array.length then
    Except.error "Word length cannot be longer than array length"
  else if positions.length > array.length then
    Except.error "Number of words cannot be more than array length"
  else
    Except.ok (positions.map (fun pos => extractWord array pos k))

/-- Effect of `array[array > 0] = 1; array[array < 0] = -1` on a single
entry: a strictly positive value becomes `1`, a strictly negative value
becomes `-1`, and any other value (zero) is left unchanged. -/
def maxContrastStep (x : Int) : Int :=
  if 0 < x then 1 else if x < 0 then -1 else x

/-- `SignatureCollection.max_contrast(array)`: sets every strictly
positive entry to `1` and every strictly negative entry to `-1`
(`array[array > 0] = 1; array[array < 0] = -1`); the in-place numpy
mutation is modelled as a pure element-wise map. -/
def max_contrast (array : List Int) : List Int :=
  array.map maxContrastStep

theorem word_positions_length (L N : Nat) : (word_positions L N).length = N := by
  simp [word_positions]

theorem word_positions_get (L N i : Nat) (hi : i < N) :
    (word_positions L N)[i]? = some ((i * L) / N) := by
  simp [word_positions, List.getElem?_map, List.getElem?_range, hi]

theorem extractWord_length (array : List Int) (pos k : Nat) :
    (extractWord array pos k).length = k := by
  unfold extractWord
  split
  · next h =>
    rw [List.length_take, List.length_drop]
    omega
  · next h =>
    rw [List.length_append, List.length_drop, List.length_replicate]
    omega

theorem get_words_ok (array : List Int) (k N : Nat)
    (hk : k ≤ array.length) (hN : N ≤ array.length) :
    get_words array k N =
      Except.ok ((word_positions array.length N).map (fun pos => extractWord array pos k)) := by
  unfold get_words
  rw [if_neg (by omega), if_neg (by rw [word_positions_length]; omega)]

theorem word_positions_mono (L N : Nat) : (word_positions L N).Pairwise (· ≤ ·) := by
  unfold word_positions
  rw [List.pairwise_map]
  exact (List.pairwise_lt_range N).imp
    (fun h => Nat.div_le_div_right (Nat.mul_le_mul_right L (Nat.le_of_lt h)))

theorem word_positions_lt (L N : Nat) (hL : 1 ≤ L) (p : Nat)
    (hp : p ∈ word_positions L N) : p < L := by
  unfold word_positions at hp
  obtain ⟨i, hi, rfl⟩ := List.mem_map.mp hp
  rw [List.mem_range] at hi
  exact Nat.div_lt_of_lt_mul ((Nat.mul_lt_mul_right hL).mpr hi)

/-- C1: for every signature of length `L ≥ 1` and `k ≤ L`, `N ≤ L`,
`get_words` succeeds and returns exactly `N` words, each of length `k`;
the start positions are the floors of the `N` evenly spaced points
`i * L / N` over `[0, L)` (right endpoint excluded), they are
non-decreasing, the first is `0` and every one is strictly below `L`. -/
theorem get_words_count_and_positions (array : List Int) (k N : Nat)
    (hL : 1 ≤ array.length) (hk : k ≤ array.length) (hN : N ≤ array.length) :
    ∃ ws, get_words array k N = Except.ok ws ∧
      ws.length = N ∧
      (∀ w ∈ ws, w.length = k) ∧
      (∀ i : Nat, i < N → (word_positions array.length N)[i]? =
        some (Nat.floor ((i : ℚ) * (array.length : ℚ) / (N : ℚ)))) ∧
      (word_positions array.length N).Pairwise (· ≤ ·) ∧
      (0 < N → (word_positions array.length N)[0]? = some 0) ∧
      (∀ p ∈ word_positions array.length N, p < array.length) := by
  refine ⟨_, get_words_ok array k N hk hN, ?_, ?_, ?_, ?_, ?_, ?_⟩
  · simp [word_positions_length]
  · intro w hw
    obtain ⟨p, _, rfl⟩ := List.mem_map.mp hw
    exact extractWord_length array p k
  · intro i hi
    rw [word_positions_get _ _ _ hi]
    have hcast : (i : ℚ) * (array.length : ℚ) / (N : ℚ)
        = (((i * array.length : Nat) : ℚ) / ((N : Nat) : ℚ)) := by
      push_cast; ring
    rw [hcast, Nat.floor_div_nat, Nat.floor_natCast]
  · exact word_positions_mono _ _
  · intro h0
    rw [word_positions_get _ _ 0 h0]
    simp
  · exact word_positions_lt _ _ hL

/-- Witness for C1 at the signature `[1, -2, 3]` with `k = 2`, `N = 2`. -/
theorem get_words_count_and_positions_witness :
    1 ≤ ([1, -2, 3] : List Int).length ∧ 2 ≤ ([1, -2, 3] : List Int).length ∧
    (∃ ws, get_words [1, -2, 3] 2 2 = Except.ok ws ∧
      ws.length = 2 ∧
      (∀ w ∈ ws, w.length = 2) ∧
      (∀ i : Nat, i < 2 → (word_positions ([1, -2, 3] : List Int).length 2)[i]? =
        some (Nat.floor ((i : ℚ) * (([1, -2, 3] : List Int).length : ℚ) / (((2 : Nat)) : ℚ)))) ∧
      (word_positions ([1, -2, 3] : List Int).length 2).Pairwise (· ≤ ·) ∧
      (0 < 2 → (word_positions ([1, -2, 3] : List Int).length 2)[0]? = some 0) ∧
      (∀ p ∈ word_positions ([1, -2, 3] : List Int).length 2, p < ([1, -2, 3] : List Int).length)) :=
  ⟨by decide, by decide,
    get_words_count_and_positions [1, -2, 3] 2 2 (by decide) (by decide) (by decide)⟩

/-- C2: every word of `get_words` is the verbatim slice
`signature[p : p+k]` when `p + k ≤ L` and the zero-padded tail
`signature[p:] ++ zeros` otherwise; on the concrete signature
`[2,-1,0,3,-4,1,0,2]` with `k = 3`, `N = 4` the start positions are
`[0,2,4,6]`, the word at position `6` is zero-padded to `[0,2,0]`, and
the quantized word at position `0` is `[1,-1,0]`. -/
theorem get_words_word_values (array : List Int) (k N : Nat)
    (hk : k ≤ array.length) (hN : N ≤ array.length) :
    (∃ ws, get_words array k N = Except.ok ws ∧
      ∀ i : Nat, i < N →
        ∃ p, (word_positions array.length N)[i]? = some p ∧
          (p + k ≤ array.length → ws[i]? = some ((array.drop p).take k)) ∧
          (array.length < p + k →
            ws[i]? = some (array.drop p ++ List.replicate (k - (array.length - p)) 0))) ∧
    get_words [2, -1, 0, 3, -4, 1, 0, 2] 3 4 =
      Except.ok [[2, -1, 0], [0, 3, -4], [-4, 1, 0], [0, 2, 0]] ∧
    word_positions 8 4 = [0, 2, 4, 6] ∧
    max_contrast [2, -1, 0] = [1, -1, 0] := by
  refine ⟨⟨_, get_words_ok array k N hk hN, ?_⟩, by rfl, by decide, by decide⟩
  intro i hi
  refine ⟨(i * array.length) / N, word_positions_get _ _ _ hi, ?_, ?_⟩
  all_goals
    intro hcase
    rw [List.getElem?_map, word_positions_get _ _ _ hi, Option.map_some']
    unfold extractWord
  · rw [if_pos hcase]
  · rw [if_neg (by omega)]

/-- Witness for C2 at the signature `[2,-1,0,3,-4,1,0,2]`, `k = 3`, `N = 4`. -/
theorem get_words_word_values_witness :
    3 ≤ ([2, -1, 0, 3, -4, 1, 0, 2] : List Int).length ∧
    4 ≤ ([2, -1, 0, 3, -4, 1, 0, 2] : List Int).length ∧
    ((∃ ws, get_words [2, -1, 0, 3, -4, 1, 0, 2] 3 4 = Except.ok ws ∧
      ∀ i : Nat, i < 4 →
        ∃ p, (word_positions ([2, -1, 0, 3, -4, 1, 0, 2] : List Int).length 4)[i]? = some p ∧
          (p + 3 ≤ ([2, -1, 0, 3, -4, 1, 0, 2] : List Int).length →
            ws[i]? = some ((([2, -1, 0, 3, -4, 1, 0, 2] : List Int).drop p).take 3)) ∧
          (([2, -1, 0, 3, -4, 1, 0, 2] : List Int).length < p + 3 →
            ws[i]? = some (([2, -1, 0, 3, -4, 1, 0, 2] : List Int).drop p ++
              List.replicate (3 - (([2, -1, 0, 3, -4, 1, 0, 2] : List Int).length - p)) 0))) ∧
    get_words [2, -1, 0, 3, -4, 1, 0, 2] 3 4 =
      Except.ok [[2, -1, 0], [0, 3, -4], [-4, 1, 0], [0, 2, 0]] ∧
    word_positions 8 4 = [0, 2, 4, 6] ∧
    max_contrast [2, -1, 0] = [1, -1, 0]) :=
  ⟨by decide, by decide,
    get_words_word_values [2, -1, 0, 3, -4, 1, 0, 2] 3 4 (by decide) (by decide)⟩

/-- C3: for a signature of length `L ≥ 1`, `get_words` fails with an
error when `k > L`, fails with an error when `N > L`, and succeeds when
both `k ≤ L` and `N ≤ L`. -/
theorem get_words_validation (array : List Int) (k N : Nat)
    (_hL : 1 ≤ array.length) :
    (array.length < k → ∃ e, get_words array k N = Except.error e) ∧
    (array.length < N → ∃ e, get_words array k N = Except.error e) ∧
    (k ≤ array.length → N ≤ array.length →
      ∃ ws, get_words array k N = Except.ok ws) := by
  refine ⟨?_, ?_, ?_⟩
  · intro h
    refine ⟨"Word length cannot be longer than array length", ?_⟩
    unfold get_words
    rw [if_pos (by omega)]
  · intro h
    by_cases hk : array.length < k
    · refine ⟨"Word length cannot be longer than array length", ?_⟩
      unfold get_words
      rw [if_pos (by omega)]
    · refine ⟨"Number of words cannot be more than array length", ?_⟩
      unfold get_words
      rw [if_neg (by omega), if_pos (by rw [word_positions_length]; omega)]
  · intro hk hN
    exact ⟨_, get_words_ok array k N hk hN⟩

/-- Witness for C3 at the length-1 signature `[5]` with `k = 2`, `N = 3`. -/
theorem get_words_validation_witness :
    1 ≤ ([5] : List Int).length ∧
    ((([5] : List Int).length < 2 → ∃ e, get_words [5] 2 3 = Except.error e) ∧
    (([5] : List Int).length < 3 → ∃ e, get_words [5] 2 3 = Except.error e) ∧
    (2 ≤ ([5] : List Int).length → 3 ≤ ([5] : List Int).length →
      ∃ ws, get_words [5] 2 3 = Except.ok ws)) :=
  ⟨by decide, get_words_validation [5] 2 3 (by decide)⟩

theorem maxContrastStep_idem (y : Int) :
    maxContrastStep (maxContrastStep y) = maxContrastStep y := by
  unfold maxContrastStep
  by_cases h1 : 0 < y
  · rw [if_pos h1]; decide
  · by_cases h2 : y < 0
    · rw [if_neg h1, if_pos h2]; decide
    · rw [if_neg h1, if_neg h2, if_neg h1, if_neg h2]

/-- C4: `max_contrast` maps every element to `{-1, 0, 1}` — strictly
positive entries become `1`, strictly negative entries become `-1`,
zero stays `0` — and applying it twice equals applying it once. -/
theorem max_contrast_spec (w : List Int) (i : Nat) (hi : i < w.length) :
    (∀ x ∈ max_contrast w, x = -1 ∨ x = 0 ∨ x = 1) ∧
    (∃ x, w[i]? = some x ∧
      (0 < x → (max_contrast w)[i]? = some 1) ∧
      (x < 0 → (max_contrast w)[i]? = some (-1)) ∧
      (x = 0 → (max_contrast w)[i]? = some 0)) ∧
    max_contrast (max_contrast w) = max_contrast w := by
  refine ⟨?_, ?_, ?_⟩
  · intro x hx
    obtain ⟨y, _, rfl⟩ := List.mem_map.mp hx
    unfold maxContrastStep
    by_cases h1 : 0 < y
    · rw [if_pos h1]; omega
    · by_cases h2 : y < 0
      · rw [if_neg h1, if_pos h2]; omega
      · rw [if_neg h1, if_neg h2]; omega
  · refine ⟨w[i], by rw [List.getElem?_eq_getElem hi], ?_, ?_, ?_⟩
    all_goals
      intro hx
      unfold max_contrast
      rw [List.getElem?_map, List.getElem?_eq_getElem hi, Option.map_some']
      unfold maxContrastStep
    · rw [if_pos hx]
    · rw [if_neg (by omega), if_pos hx]
    · rw [if_neg (by omega), if_neg (by omega), hx]
  · unfold max_contrast
    rw [List.map_map]
    exact List.map_congr_left (fun y _ => maxContrastStep_idem y)

/-- Witness for C4 at the word `[5, -3, 0]` and index `1`. -/
theorem max_contrast_spec_witness :
    1 < ([5, -3, 0] : List Int).length ∧
    ((∀ x ∈ max_contrast [5, -3, 0], x = -1 ∨ x = 0 ∨ x = 1) ∧
    (∃ x, ([5, -3, 0] : List Int)[1]? = some x ∧
      (0 < x → (max_contrast [5, -3, 0])[1]? = some 1) ∧
      (x < 0 → (max_contrast [5, -3, 0])[1]? = some (-1)) ∧
      (x = 0 → (max_contrast [5, -3, 0])[1]? = some 0)) ∧
    max_contrast (max_contrast [5, -3, 0]) = max_contrast [5, -3, 0]) :=
  ⟨by decide, max_contrast_spec [5, -3, 0] 1 (by decide)⟩

/-- A value stored in one field of a document: the image path (a
Python string) or a list of integer signature entries (the `tolist()`
of a numpy `int8` array). -/
inductive FieldVal where
  | str (s : String)
  | ints (xs : List Int)
deriving DecidableEq

/-- A MongoDB document, modelled as an association list from field
names to values. -/
abbrev Record := List (String × FieldVal)

/-- `field.find('simple') > -1`: the field name contains `"simple"`
as a substring. -/
def containsSimple (field : String) : Bool :=
  decide (List.IsInfix "simple".toList field.toList)

/-- The name of the `i`-th word-slot field,
`''.join(['simple_word_', str(i)])`. -/
def wordField (i : Nat) : String :=
  "simple_word_" ++ toString i

/-- `SignatureCollection.make_record(path)`, with the external
signature generator's output passed in explicitly: the record holds
the path, the raw signature (`signature.tolist()`), and — after
`get_words` and the in-place `max_contrast` — the `N` quantized words
under the fields `simple_word_0 … simple_word_{N-1}`. -/
def make_record (path : String) (signature : List Int) (k N : Nat) :
    Except String Record := do
  let words ← get_words signature k N
  let qwords := words.map max_contrast
  Except.ok (("path", FieldVal.str path) ::
    ("signature", FieldVal.ints signature) ::
    qwords.enum.map (fun p => (wordField p.1, FieldVal.ints p.2)))

/-- The `$or` clauses `[{name: record[name]} for name in index_names]`;
Python raises `KeyError` when a name is missing from the query record. -/
def orClauses : List String → Record → Except String (List (String × FieldVal))
  | [], _ => Except.ok []
  | name :: rest, record =>
    match record.lookup name with
    | some v => (orClauses rest record).map (fun cs => (name, v) :: cs)
    | none => Except.error ("KeyError: " ++ name)

/-- The document-store model of `collection.find({'$or': clauses})`:
it returns exactly the stored documents satisfying at least one
field-equality clause. -/
def findOr (clauses : List (String × FieldVal)) (docs : List Record) :
    List Record :=
  docs.filter (fun doc => clauses.any (fun c => decide (doc.lookup c.1 = some c.2)))

/-- `SignatureCollection.find_word_matches(record)`:
`collection.find({'$or': [{name: record[name]} for name in index_names]})`. -/
def find_word_matches (index_names : List String) (record : Record)
    (docs : List Record) : Except String (List Record) := do
  let clauses ← orClauses index_names record
  Except.ok (findOr clauses docs)

/-- A dynamically-typed Python value passed to the
`SignatureCollection` constructor; Python floats are modelled as
rationals. -/
inductive PyVal where
  | vcoll (docs : List Record)
  | vint (n : Int)
  | vfloat (q : ℚ)
  | vstr (s : String)
  | vnone
deriving DecidableEq

/-- `isinstance`-free numeric test used only to state the spec's
phrase "numeric": Python ints and floats are numeric. -/
def isNumeric : PyVal → Bool
  | PyVal.vint _ => true
  | PyVal.vfloat _ => true
  | _ => false

/-- The attributes of a constructed `SignatureCollection` that the
modelled methods read. `index_names` is an `Option` because
`__init__` assigns the attribute only when `collection.count() > 0`;
reading it while unset raises `AttributeError`. -/
structure SigCollState where
  docs : List Record
  k : Int
  N : Int
  distance_cutoff : ℚ
  index_names : Option (List String)
deriving DecidableEq

/-- `[field for field in self.collection.find_one({}).keys() if field.find('simple') > -1]`:
the field names of the first stored document that contain `"simple"`. -/
def discoverIndexNames (docs : List Record) : List String :=
  match docs with
  | [] => []
  | d :: _ => (d.map Prod.fst).filter containsSimple

/-- `SignatureCollection.__init__(collection, k, N, distance_cutoff)`:
requires the collection handle to be a MongoDB collection, `k` and `N`
to be Python ints and `distance_cutoff` to be a Python float
(`type(x) is T` checks), rejects a negative cutoff, and assigns
`index_names` from the first stored document only when the collection
is non-empty. -/
def initCheck (collection k N distance_cutoff : PyVal) :
    Except String SigCollState :=
  match collection with
  | PyVal.vcoll docs =>
    match k with
    | PyVal.vint kv =>
      match N with
      | PyVal.vint Nv =>
        match distance_cutoff with
        | PyVal.vfloat q =>
          if q < 0 then
            Except.error "distance_cutoff should be > 0"
          else
            Except.ok ⟨docs, kv, Nv, q,
              if 0 < docs.length then some (discoverIndexNames docs) else none⟩
        | _ => Except.error "distance_cutoff should be a float"
      | _ => Except.error "N should be an integer"
    | _ => Except.error "k should be an integer"
  | _ => Except.error "Expected MongoDB collection"

/-- `SignatureCollection.find_word_matches` as invoked on a
constructed instance: reading `self.index_names` raises
`AttributeError` when the attribute was never assigned. -/
def find_word_matches_method (st : SigCollState) (record : Record) :
    Except String (List Record) :=
  match st.index_names with
  | Option.none => Except.error "AttributeError: index_names"
  | some names => find_word_matches names record st.docs

theorem toList_append (a b : String) : (a ++ b).toList = a.toList ++ b.toList :=
  String.data_append a b

theorem containsSimple_wordField (i : Nat) : containsSimple (wordField i) = true := by
  unfold containsSimple wordField
  rw [decide_eq_true_iff]
  refine ⟨[], "_word_".toList ++ (toString i).toList, ?_⟩
  rw [List.nil_append, toList_append,
    show "simple_word_".toList = "simple".toList ++ "_word_".toList from rfl,
    List.append_assoc]

theorem orClauses_mem (names : List String) (record : Record) :
    ∀ clauses, orClauses names record = Except.ok clauses →
      ∀ c ∈ clauses, c.1 ∈ names ∧ record.lookup c.1 = some c.2 := by
  induction names with
  | nil =>
    intro clauses h c hc
    simp only [orClauses] at h
    cases h
    simp at hc
  | cons name rest ih =>
    intro clauses h c hc
    simp only [orClauses] at h
    cases hl : record.lookup name with
    | none => rw [hl] at h; cases h
    | some v =>
      rw [hl] at h
      cases hoc : orClauses rest record with
      | error e => rw [hoc] at h; simp [Except.map] at h
      | ok cs =>
        rw [hoc] at h
        simp only [Except.map] at h
        have hcl : (name, v) :: cs = clauses := Except.ok.inj h
        subst hcl
        rcases List.mem_cons.mp hc with rfl | hc2
        · exact ⟨List.mem_cons_self _ _, hl⟩
        · obtain ⟨h1, h2⟩ := ih cs hoc c hc2
          exact ⟨List.mem_cons_of_mem _ h1, h2⟩

/-- C5: with the index-field names discovered from records built by
`make_record` (the word-slot fields `simple_word_0 … simple_word_{N-1}`),
every document returned by `find_word_matches` agrees with the query
record on at least one quantized word slot. -/
theorem find_word_matches_share (N : Nat) (record : Record)
    (docs res : List Record) (doc : Record)
    (hfind : find_word_matches ((List.range N).map wordField) record docs =
      Except.ok res)
    (hdoc : doc ∈ res) :
    ∃ i, i < N ∧ ∃ v, record.lookup (wordField i) = some v ∧
      doc.lookup (wordField i) = some v := by
  unfold find_word_matches at hfind
  cases hoc : orClauses ((List.range N).map wordField) record with
  | error e =>
    rw [hoc] at hfind
    exact absurd hfind (by simp [Bind.bind, Except.bind])
  | ok clauses =>
    rw [hoc] at hfind
    have hres : findOr clauses docs = res := Except.ok.inj hfind
    subst hres
    rw [findOr, List.mem_filter] at hdoc
    obtain ⟨-, hany⟩ := hdoc
    obtain ⟨c, hcmem, hceq⟩ := List.any_eq_true.mp hany
    have hlook : doc.lookup c.1 = some c.2 := of_decide_eq_true hceq
    obtain ⟨hname, hrec⟩ := orClauses_mem _ record clauses hoc c hcmem
    obtain ⟨i, hiN, hwf⟩ := List.mem_map.mp hname
    rw [List.mem_range] at hiN
    refine ⟨i, hiN, c.2, ?_, ?_⟩
    · rw [hwf]; exact hrec
    · rw [hwf]; exact hlook

/-- Witness for C5 on a one-word collection holding one record that
matches the query on slot 0. -/
theorem find_word_matches_share_witness :
    find_word_matches ((List.range 1).map wordField)
      [(wordField 0, FieldVal.ints [1, -1, 0])]
      [[(wordField 0, FieldVal.ints [1, -1, 0])]] =
      Except.ok [[(wordField 0, FieldVal.ints [1, -1, 0])]] ∧
    ([(wordField 0, FieldVal.ints [1, -1, 0])] : Record) ∈
      [[(wordField 0, FieldVal.ints [1, -1, 0])]] ∧
    ∃ i, i < 1 ∧ ∃ v,
      ([(wordField 0, FieldVal.ints [1, -1, 0])] : Record).lookup (wordField i) =
        some v ∧
      ([(wordField 0, FieldVal.ints [1, -1, 0])] : Record).lookup (wordField i) =
        some v :=
  ⟨by rfl, by simp,
    find_word_matches_share 1 [(wordField 0, FieldVal.ints [1, -1, 0])]
      [[(wordField 0, FieldVal.ints [1, -1, 0])]]
      [[(wordField 0, FieldVal.ints [1, -1, 0])]]
      [(wordField 0, FieldVal.ints [1, -1, 0])] (by rfl) (by simp)⟩

/-- C8 (code bug): on a `SignatureCollection` constructed over an
empty collection, `find_word_matches` does not return an empty result:
it fails with `AttributeError`, because `__init__` assigns
`self.index_names` only when `collection.count() > 0`. -/
theorem find_word_matches_empty_collection_error :
    (initCheck (PyVal.vcoll []) (PyVal.vint 16) (PyVal.vint 63)
        (PyVal.vfloat 1)).bind
      (fun st => find_word_matches_method st [("path", FieldVal.str "q")]) =
      Except.error "AttributeError: index_names" := by
  rfl

/-- C9 counterexample: `distance_cutoff = 0` given as a Python `int`
is numeric and non-negative, yet construction fails with a
`TypeError`, because the code requires `type(distance_cutoff) is
float`. -/
theorem initCheck_rejects_int_cutoff :
    isNumeric (PyVal.vint 0) = true ∧ (0 : Int) ≤ 0 ∧
    initCheck (PyVal.vcoll []) (PyVal.vint 16) (PyVal.vint 63) (PyVal.vint 0) =
      Except.error "distance_cutoff should be a float" :=
  ⟨rfl, le_refl 0, rfl⟩

/-- C9 (amended): construction succeeds exactly when the store handle
is a collection, `k` and `N` are Python ints, and `distance_cutoff` is
a non-negative Python float (including `0.0`); a numeric cutoff of the
wrong type — any Python int — is rejected. -/
theorem initCheck_spec (c k N d : PyVal) :
    (∃ st, initCheck c k N d = Except.ok st) ↔
      ((∃ docs, c = PyVal.vcoll docs) ∧ (∃ n, k = PyVal.vint n) ∧
        (∃ n, N = PyVal.vint n) ∧ (∃ q, d = PyVal.vfloat q ∧ 0 ≤ q)) := by
  constructor
  · rintro ⟨st, hst⟩
    rcases c with docs | n1 | q1 | s1 | _ <;>
      rcases k with d2 | n2 | q2 | s2 | _ <;>
        rcases N with d3 | n3 | q3 | s3 | _ <;>
          rcases d with d4 | n4 | q4 | s4 | _ <;>
            simp [initCheck] at hst
    by_cases hq : q4 < 0
    · rw [if_pos hq] at hst; cases hst
    · exact ⟨⟨_, rfl⟩, ⟨_, rfl⟩, ⟨_, rfl⟩, ⟨q4, rfl, not_lt.mp hq⟩⟩
  · rintro ⟨⟨docs, rfl⟩, ⟨kn, rfl⟩, ⟨Nn, rfl⟩, ⟨q, rfl, hq⟩⟩
    refine ⟨⟨docs, kn, Nn, q,
      if 0 < docs.length then some (discoverIndexNames docs) else none⟩, ?_⟩
    simp only [initCheck]
    rw [if_neg (not_lt.mpr hq)]

/-- C10: a record built by `make_record` contains exactly the fields
`path`, `signature`, and `simple_word_0 … simple_word_{N-1}`; the
word-slot fields are exactly the fields selected by the
index-discovery rule (name contains `"simple"`); the `signature` field
holds the raw unquantized signature, and the `i`-th word-slot field
holds the `max_contrast`-quantized `i`-th extracted word. -/
theorem make_record_fields (path : String) (signature : List Int) (k N : Nat)
    (hk : k ≤ signature.length) (hN : N ≤ signature.length) :
    ∃ r ws, make_record path signature k N = Except.ok r ∧
      get_words signature k N = Except.ok ws ∧
      r.map Prod.fst = "path" :: "signature" :: (List.range N).map wordField ∧
      (r.map Prod.fst).filter containsSimple = (List.range N).map wordField ∧
      r[0]? = some ("path", FieldVal.str path) ∧
      r[1]? = some ("signature", FieldVal.ints signature) ∧
      ∀ i : Nat, i < N → ∃ w, ws[i]? = some w ∧
        r[2 + i]? = some (wordField i, FieldVal.ints (max_contrast w)) := by
  have hws := get_words_ok signature k N hk hN
  set ws : List (List Int) :=
    (word_positions signature.length N).map (fun pos => extractWord signature pos k)
    with hwsdef
  have hwslen : ws.length = N := by
    rw [hwsdef, List.length_map, word_positions_length]
  set r : Record := ("path", FieldVal.str path) ::
    ("signature", FieldVal.ints signature) ::
    (ws.map max_contrast).enum.map (fun p => (wordField p.1, FieldVal.ints p.2))
    with hrdef
  have hmk : make_record path signature k N = Except.ok r := by
    unfold make_record
    rw [hws, hrdef]
    rfl
  have hkeys : r.map Prod.fst =
      "path" :: "signature" :: (List.range N).map wordField := by
    rw [hrdef]
    simp only [List.map_cons]
    rw [List.map_map,
      show ((Prod.fst ∘ fun p : Nat × List Int => (wordField p.1, FieldVal.ints p.2)) =
        (wordField ∘ Prod.fst)) from rfl,
      ← List.map_map, List.enum_map_fst, List.length_map, hwslen]
  refine ⟨r, ws, hmk, hws, hkeys, ?_,
    by rw [hrdef, List.getElem?_cons_zero],
    by rw [hrdef, List.getElem?_cons_succ, List.getElem?_cons_zero], ?_⟩
  · rw [hkeys, List.filter_cons_of_neg (by decide), List.filter_cons_of_neg (by decide)]
    refine List.filter_eq_self.mpr ?_
    intro a ha
    obtain ⟨i, _, rfl⟩ := List.mem_map.mp ha
    exact containsSimple_wordField i
  · intro i hi
    have hilen : i < ws.length := by omega
    refine ⟨ws[i], List.getElem?_eq_getElem hilen, ?_⟩
    rw [hrdef, show 2 + i = i + 1 + 1 from by omega, List.getElem?_cons_succ,
      List.getElem?_cons_succ, List.getElem?_map, List.getElem?_enum,
      List.getElem?_map, List.getElem?_eq_getElem hilen]
    rfl

/-- Witness for C10 at the signature `[2,-1,0,3,-4,1,0,2]` with
`k = 3`, `N = 4`. -/
theorem make_record_fields_witness :
    3 ≤ ([2, -1, 0, 3, -4, 1, 0, 2] : List Int).length ∧
    4 ≤ ([2, -1, 0, 3, -4, 1, 0, 2] : List Int).length ∧
    (∃ r ws, make_record "img.png" [2, -1, 0, 3, -4, 1, 0, 2] 3 4 = Except.ok r ∧
      get_words [2, -1, 0, 3, -4, 1, 0, 2] 3 4 = Except.ok ws ∧
      r.map Prod.fst = "path" :: "signature" :: (List.range 4).map wordField ∧
      (r.map Prod.fst).filter containsSimple = (List.range 4).map wordField ∧
      r[0]? = some ("path", FieldVal.str "img.png") ∧
      r[1]? = some ("signature", FieldVal.ints [2, -1, 0, 3, -4, 1, 0, 2]) ∧
      ∀ i : Nat, i < 4 → ∃ w, ws[i]? = some w ∧
        r[2 + i]? = some (wordField i, FieldVal.ints (max_contrast w))) :=
  ⟨by decide, by decide,
    make_record_fields "img.png" [2, -1, 0, 3, -4, 1, 0, 2] 3 4 (by decide) (by decide)⟩

/-- `SignatureCollection.normalized_distance` for a single row `b` of
the target array:
`np.linalg.norm(vec - b) / (np.linalg.norm(vec) + np.linalg.norm(b))`,
with numpy float arithmetic idealized as real arithmetic and
`np.linalg.norm` as the Euclidean norm. -/
noncomputable def normalized_distance {n : Nat}
    (b vec : EuclideanSpace ℝ (Fin n)) : ℝ :=
  ‖vec - b‖ / (‖vec‖ + ‖b‖)

/-- The ranking step of `SignatureCollection.find_matches`: the
distances `d` to all candidates, the boolean mask
`w = d < self.distance_cutoff`, and the result `zip(d[w], paths[w])`. -/
noncomputable def find_matches_rank {n : Nat} (distance_cutoff : ℝ)
    (record_signature : EuclideanSpace ℝ (Fin n))
    (candidates : List (EuclideanSpace ℝ (Fin n) × String)) :
    List (ℝ × String) :=
  (candidates.map (fun c => (normalized_distance c.1 record_signature, c.2))).filter
    (fun p => decide (p.1 < distance_cutoff))

/-- C6: `normalized_distance` is `‖query - candidate‖ / (‖query‖ + ‖candidate‖)`
with Euclidean norms: it is `0` on equal non-zero vectors and lies in
`[0, 1]` whenever the two norms have a positive sum. -/
theorem normalized_distance_spec {n : Nat} (b v : EuclideanSpace ℝ (Fin n)) :
    (v ≠ 0 → normalized_distance v v = 0) ∧
    (0 < ‖v‖ + ‖b‖ →
      0 ≤ normalized_distance b v ∧ normalized_distance b v ≤ 1) := by
  constructor
  · intro _
    unfold normalized_distance
    rw [sub_self, norm_zero, zero_div]
  · intro hpos
    constructor
    · exact div_nonneg (norm_nonneg _) hpos.le
    · exact (div_le_one hpos).mpr (norm_sub_le v b)

/-- The concrete unit vector `(1)` of `EuclideanSpace ℝ (Fin 1)`, used
by the witnesses of the distance claims. -/
noncomputable def eucOne : EuclideanSpace ℝ (Fin 1) :=
  EuclideanSpace.single 0 1

theorem eucOne_norm : ‖eucOne‖ = 1 := by
  unfold eucOne
  rw [EuclideanSpace.norm_single]
  norm_num

theorem eucOne_ne_zero : eucOne ≠ 0 :=
  norm_ne_zero_iff.mp (by rw [eucOne_norm]; norm_num)

/-- Witness for C6 at the non-zero vector `eucOne`. -/
theorem normalized_distance_spec_witness :
    eucOne ≠ 0 ∧ normalized_distance eucOne eucOne = 0 ∧
    0 < ‖eucOne‖ + ‖eucOne‖ ∧ 0 ≤ normalized_distance eucOne eucOne ∧
    normalized_distance eucOne eucOne ≤ 1 := by
  have hpos : 0 < ‖eucOne‖ + ‖eucOne‖ := by rw [eucOne_norm]; norm_num
  refine ⟨eucOne_ne_zero,
    (normalized_distance_spec eucOne eucOne).1 eucOne_ne_zero, hpos,
    ((normalized_distance_spec eucOne eucOne).2 hpos).1,
    ((normalized_distance_spec eucOne eucOne).2 hpos).2⟩

/-- C7: the ranking step keeps a pair in the result set exactly when
its normalized distance to the query is strictly below the cutoff; a
candidate whose distance equals the cutoff is excluded. -/
theorem find_matches_rank_spec {n : Nat} (distance_cutoff : ℝ)
    (query : EuclideanSpace ℝ (Fin n))
    (candidates : List (EuclideanSpace ℝ (Fin n) × String)) (pr : ℝ × String) :
    (pr ∈ find_matches_rank distance_cutoff query candidates ↔
      ∃ c ∈ candidates, pr = (normalized_distance c.1 query, c.2) ∧
        pr.1 < distance_cutoff) ∧
    (∀ c ∈ candidates, normalized_distance c.1 query = distance_cutoff →
      (normalized_distance c.1 query, c.2) ∉
        find_matches_rank distance_cutoff query candidates) := by
  have hmem : ∀ q : ℝ × String,
      q ∈ find_matches_rank distance_cutoff query candidates ↔
        ∃ c ∈ candidates, q = (normalized_distance c.1 query, c.2) ∧
          q.1 < distance_cutoff := by
    intro q
    unfold find_matches_rank
    rw [List.mem_filter, List.mem_map]
    constructor
    · rintro ⟨⟨c, hc, rfl⟩, hdec⟩
      exact ⟨c, hc, rfl, of_decide_eq_true hdec⟩
    · rintro ⟨c, hc, rfl, hlt⟩
      exact ⟨⟨c, hc, rfl⟩, decide_eq_true hlt⟩
  refine ⟨hmem pr, ?_⟩
  intro c hc heq hin
  obtain ⟨c2, -, -, hlt⟩ := (hmem _).mp hin
  have hcut : normalized_distance c.1 query < distance_cutoff := hlt
  rw [heq] at hcut
  exact lt_irrefl _ hcut

/-- Witness for C7: with cutoff `1` the zero-distance self-match is
kept; with cutoff `0` the same candidate sits at distance exactly
equal to the cutoff and is excluded. -/
theorem find_matches_rank_spec_witness :
    (normalized_distance eucOne eucOne, "a") ∈
      find_matches_rank 1 eucOne [(eucOne, "a")] ∧
    normalized_distance eucOne eucOne = 0 ∧
    (normalized_distance eucOne eucOne, "a") ∉
      find_matches_rank 0 eucOne [(eucOne, "a")] := by
  have h0 : normalized_distance eucOne eucOne = 0 := by
    unfold normalized_distance
    rw [sub_self, norm_zero, zero_div]
  refine ⟨?_, h0, ?_⟩
  · exact ((find_matches_rank_spec 1 eucOne [(eucOne, "a")]
        (normalized_distance eucOne eucOne, "a")).1).mpr
      ⟨(eucOne, "a"), List.mem_singleton.mpr rfl, rfl, by
        show normalized_distance eucOne eucOne < (1 : ℝ)
        rw [h0]; norm_num⟩
  · exact (find_matches_rank_spec 0 eucOne [(eucOne, "a")]
        (normalized_distance eucOne eucOne, "a")).2
      (eucOne, "a") (List.mem_singleton.mpr rfl) h0

end SignatureDB
